import Mathlib

/-
Verification of the pail causal-log + indexed key-value engine.

Part 1 embeds the secondary-index engine from src/test/prolly.test.js
(the `Index` class: indexEntriesForChanges, indexEntriesForOldChanges,
bulkIndex, queryIndexRange, Index.query, Index.#updateIndex).  The
external prolly-trees db-index library is modelled from the spec
(section 4.D): a tree is its canonical content, i.e. an association
list kept sorted by the key comparator; content addressing makes equal
content the same root, so a root is represented by the tree value
itself and the block store is abstracted away.

Part 2 models the Merkle clock, the CRDT engine and the prolly-tree
materialisation from the spec (sections 4.C and 4.E; clock.js and
prolly.js are not part of the given sources).

Part 3 embeds the `husher` combinator and the clock-handle
serialization from src/packages/use-fireproof/index.tsx.
-/

namespace Pail

/-- A JS key value as used by the index layer: either a number or a string. -/
inductive JKey
  | num (n : Int)
  | str (s : String)
deriving DecidableEq

/-- Deterministic total order on JS keys: numbers sort before strings. -/
def jle : JKey → JKey → Bool
  | .num a, .num b => decide (a ≤ b)
  | .num _, .str _ => true
  | .str _, .num _ => false
  | .str a, .str b => decide (a ≤ b)

/-- A key of the forward index tree: either the JS value `undefined`
(which the buggy invalidation path produces) or the composite
`[emittedKey, docId]` that emissions produce. -/
inductive IxKey
  | undef
  | comp (k : JKey) (id : JKey)
deriving DecidableEq

/-- Order on forward-index keys: composite keys ordered by emitted key,
then doc id; `undefined` sorts first. -/
def ixle : IxKey → IxKey → Bool
  | .undef, _ => true
  | .comp _ _, .undef => false
  | .comp k1 d1, .comp k2 d2 => if k1 = k2 then jle d1 d2 else jle k1 k2

/-- Modelled from the spec (4.D prolly tree): a tree is its canonical
content, an association list sorted by the key comparator.  Content
addressing identifies equal content, so the tree value doubles as its
root CID. -/
abbrev KTree (κ V : Type) := List (κ × V)

/-- A batch entry for `tree.bulk` / `create`: `{key, value}` is a put,
`{key, del: true}` is a removal (spec 4.D). -/
inductive IxOp (κ V : Type)
  | put (key : κ) (value : V)
  | del (key : κ)
deriving DecidableEq

/-- Insert `(k, v)` into a sorted association list, replacing the value
if the key is already present. -/
def insertSorted [DecidableEq κ] (le : κ → κ → Bool) (k : κ) (v : V) :
    KTree κ V → KTree κ V
  | [] => [(k, v)]
  | (k1, v1) :: rest =>
    if k = k1 then (k, v) :: rest
    else if le k k1 then (k, v) :: (k1, v1) :: rest
    else (k1, v1) :: insertSorted le k v rest

/-- Remove a key from the tree. -/
def treeDel [DecidableEq κ] (k : κ) (t : KTree κ V) : KTree κ V :=
  t.filter (fun p => decide (p.1 ≠ k))

/-- Apply one bulk entry (spec 4.D `tree.bulk`). -/
def applyIxOp [DecidableEq κ] (le : κ → κ → Bool) (t : KTree κ V) :
    IxOp κ V → KTree κ V
  | .put k v => insertSorted le k v t
  | .del k => treeDel k t

/-- Apply a batch of entries in order (spec 4.D `tree.bulk`; `create`
is the same applied to the empty tree, deletions being no-ops there). -/
def treeBulk [DecidableEq κ] (le : κ → κ → Bool) (t : KTree κ V)
    (ops : List (IxOp κ V)) : KTree κ V :=
  ops.foldl (applyIxOp le) t

/-- Embedded from src `bulkIndex(blocks, inRoot, indexEntries)`: an
empty batch returns the input root unchanged; otherwise a missing root
creates a fresh tree from the batch and an existing root is loaded and
bulk-updated.  Block-store writes are abstracted away. -/
def bulkIndex [DecidableEq κ] (le : κ → κ → Bool)
    (inRoot : Option (KTree κ V)) (indexEntries : List (IxOp κ V)) :
    Option (KTree κ V) :=
  if indexEntries.isEmpty then inRoot
  else
    match inRoot with
    | none => some (treeBulk le [] indexEntries)
    | some t => some (treeBulk le t indexEntries)

/-- Spec 4.D `tree.getMany(keys)`: values in input key order, missing
keys skipped. -/
def treeGetMany [DecidableEq κ] (t : KTree κ V) (ks : List κ) : List V :=
  ks.filterMap (fun k => (t.find? (fun p => decide (p.1 = k))).map (fun p => p.2))

/-- A row of the db-index range result as the library returns it
(spec 4.D `tree.range`).  Modelled from the spec, with the field
correspondence fixed by the spec's literal scenario S5 (query rows
carry the doc id in `id` after `Index.query`'s swap): the library
row's `id` holds the emitted key and its `key` holds the doc id. -/
structure TRow (V : Type) where
  id : JKey
  key : JKey
  row : V
deriving DecidableEq

/-- A row of `Index.query`'s result: `{id, key, value}`. -/
structure QRow (V : Type) where
  id : JKey
  key : JKey
  value : V
deriving DecidableEq

/-- Modelled from the spec (4.D `tree.range`, inclusive bounds; 4.F
range-scan on `[[lo, minId], [hi, maxId]]`): all composite entries
whose emitted key lies in `[lo, hi]`, in tree order; the `undefined`
key never matches a composite range. -/
def rangeScan (t : KTree IxKey V) (lo hi : JKey) : List (TRow V) :=
  t.filterMap (fun p =>
    match p.1 with
    | .comp k d => if jle lo k && jle k hi then some ⟨k, d, p.2⟩ else none
    | .undef => none)

/-- Errors of the index engine: a JS TypeError (property access or
destructuring on null) or an error thrown by the user map function. -/
inductive IdxErr (ε : Type)
  | typeError
  | userError (e : ε)
deriving DecidableEq

/-- Embedded from src `queryIndexRange(blocks, { cid }, query)`.  The
parameter destructures `{ cid }` of the root argument, so a null root
throws a TypeError before the `if (!cid) return { result: [] }` guard
can run; a loaded root block always has a truthy cid, so the guard
never fires on the other path. -/
def queryIndexRange (inRoot : Option (KTree IxKey V)) (lo hi : JKey) :
    Except (IdxErr ε) (List (TRow V)) :=
  match inRoot with
  | none => Except.error IdxErr.typeError
  | some t => Except.ok (rangeScan t lo hi)

/-- One row of `database.changesSince`: `{key, value, del}`. -/
structure Change (DV : Type) where
  key : JKey
  value : DV
  del : Bool
deriving DecidableEq

/-- The result of `database.changesSince`: rows plus the head at call
time.  Heads are abstracted to tokens. -/
structure ChangesResult (DV : Type) where
  rows : List (Change DV)
  head : Nat
deriving DecidableEq

/-- A document as passed to the map function: `{_id: key, ...value-fields}`
(embedded from src `makeDoc`; the spread of the value fields is
modelled as a `fields` component). -/
structure Doc (DV : Type) where
  _id : JKey
  fields : DV
deriving DecidableEq

/-- Embedded from src `makeDoc({ key, value })`. -/
def makeDoc (c : Change DV) : Doc DV := ⟨c.key, c.value⟩

/-- Embedded from src `indexEntriesForChanges(changes, mapFun)`:
deleted changes are skipped; for each other change the map function
runs on the document and each emission `(k, v)` pushes the entry
`{key: [k, key], value: v}`.  A throwing map function is modelled by
`Except`; a throw aborts the whole batch. -/
def indexEntriesForChanges (changes : List (Change DV))
    (mapFun : Doc DV → Except ε (List (JKey × V))) :
    Except ε (List (IxOp IxKey V)) :=
  match changes with
  | [] => Except.ok []
  | c :: rest =>
    if c.del then indexEntriesForChanges rest mapFun
    else
      match mapFun (makeDoc c) with
      | Except.error e => Except.error e
      | Except.ok emits =>
        match indexEntriesForChanges rest mapFun with
        | Except.error e => Except.error e
        | Except.ok tail =>
          Except.ok (emits.map (fun kv => IxOp.put (IxKey.comp kv.1 c.key) kv.2) ++ tail)

/-- Embedded from src `Index.#updateIndex`: the byId entries derived
from the forward entries, `{key: key[1], value: key}`.  The forward
entries produced by `indexEntriesForChanges` are always composite
puts, which is the only case the JS field accesses are defined on. -/
def byIdIndexEntriesOf (indexEntries : List (IxOp IxKey V)) :
    List (IxOp JKey (JKey × JKey)) :=
  indexEntries.filterMap (fun e =>
    match e with
    | IxOp.put (IxKey.comp k d) _ => some (IxOp.put d (k, d))
    | _ => none)

/-- Embedded from src `Index.#updateIndex`: the invalidation batch,
`.map((key) => ({ key: undefined, del: true }))` over the prior
emission keys found in the byId tree - note the mapped function
discards its argument and emits the key `undefined`. -/
def oldIndexEntriesOf (priorKeys : List (JKey × JKey)) : List (IxOp IxKey V) :=
  priorKeys.map (fun _ => IxOp.del IxKey.undef)

/-- Embedded from src `indexEntriesForOldChanges(blocks, byIDindexRoot,
ids, mapFun)`: loads the byId tree (`byIDindexRoot.cid` throws a
TypeError when the root is null) and returns `getMany(ids).result`.
The `mapFun` argument is accepted and unused, as in the source. -/
def indexEntriesForOldChanges (byIdRoot : Option (KTree JKey (JKey × JKey)))
    (ids : List JKey) (_mapFun : Doc DV → Except ε (List (JKey × V))) :
    Except (IdxErr ε) (List (JKey × JKey)) :=
  match byIdRoot with
  | none => Except.error IdxErr.typeError
  | some t => Except.ok (treeGetMany t ids)

/-- The mutable state of an `Index`: forward root, byId root and the
head up to which the index is refreshed. -/
structure IdxState (V : Type) where
  indexRoot : Option (KTree IxKey V)
  byIdRoot : Option (KTree JKey (JKey × JKey))
  dbHead : Option Nat
deriving DecidableEq

/-- The tail of `Index.#updateIndex` after the invalidation step:
compute the new entries (the map function may throw here, aborting
with the state as mutated so far), bulk both trees and set `dbHead`. -/
def updateIndexRest (st : IdxState V)
    (mapFun : Doc DV → Except ε (List (JKey × V)))
    (result : ChangesResult DV) : Except (IdxErr ε) Unit × IdxState V :=
  match indexEntriesForChanges result.rows mapFun with
  | Except.error e => (Except.error (IdxErr.userError e), st)
  | Except.ok indexEntries =>
    let byIdIndexEntries := byIdIndexEntriesOf indexEntries
    (Except.ok (),
      { st with
        byIdRoot := bulkIndex jle st.byIdRoot byIdIndexEntries,
        indexRoot := bulkIndex ixle st.indexRoot indexEntries,
        dbHead := some result.head })

/-- Embedded from src `Index.#updateIndex` (ALWAYS_REBUILD is false):
take the changes since `dbHead`; if `dbHead` was set, fetch the prior
emissions of the changed ids from the byId tree and apply the
invalidation batch to the forward root; then apply the new entries.
The `changesSince` result is an input (the database is external to the
index).  Mutations already performed when an error is thrown remain in
the returned state, as the JS field assignments do. -/
def updateIndex (st : IdxState V)
    (mapFun : Doc DV → Except ε (List (JKey × V)))
    (result : ChangesResult DV) : Except (IdxErr ε) Unit × IdxState V :=
  match st.dbHead with
  | some _ =>
    match indexEntriesForOldChanges st.byIdRoot (result.rows.map (fun r => r.key)) mapFun with
    | Except.error e => (Except.error e, st)
    | Except.ok priorKeys =>
      let oldIndexEntries : List (IxOp IxKey V) := oldIndexEntriesOf priorKeys
      let st1 := { st with indexRoot := bulkIndex ixle st.indexRoot oldIndexEntries }
      updateIndexRest st1 mapFun result
  | none => updateIndexRest st mapFun result

/-- Embedded from src `Index.query` (line 299): each library row
`{id, key, row}` is returned as `{id: key, key: id, value: row}` -
the two key fields are swapped. -/
def queryRowTranslate (r : TRow V) : QRow V := ⟨r.key, r.id, r.row⟩

/-- Embedded from src `Index.query(query)` without a root override:
refresh the index, range-scan the forward root and translate the
rows.  An error from either step propagates to the caller with the
state as mutated so far. -/
def indexQuery (st : IdxState V)
    (mapFun : Doc DV → Except ε (List (JKey × V)))
    (result : ChangesResult DV) (lo hi : JKey) :
    Except (IdxErr ε) (List (QRow V)) × IdxState V :=
  match updateIndex st mapFun result with
  | (Except.error e, st1) => (Except.error e, st1)
  | (Except.ok _, st1) =>
    match queryIndexRange st1.indexRoot lo hi with
    | Except.error e => (Except.error e, st1)
    | Except.ok rows => (Except.ok (rows.map queryRowTranslate), st1)

/-- Spec-side description (4.F step 4) of the forward entries of one
refresh: for each non-deleted change, each emission `(k, v)` of the
map function on the document gives `{key: [k, docId], value: v}`. -/
def specForwardEntries (changes : List (Change DV))
    (f : Doc DV → List (JKey × V)) : List (IxOp IxKey V) :=
  (changes.filter (fun c => !c.del)).flatMap
    (fun c => (f (makeDoc c)).map (fun kv => IxOp.put (IxKey.comp kv.1 c.key) kv.2))

/-- Spec-side description (4.F step 4) of the byId entries of one
refresh: for each emission, `{key: docId, value: [k, docId]}`. -/
def specByIdEntries (changes : List (Change DV))
    (f : Doc DV → List (JKey × V)) : List (IxOp JKey (JKey × JKey)) :=
  (changes.filter (fun c => !c.del)).flatMap
    (fun c => (f (makeDoc c)).map (fun kv => IxOp.put c.key (kv.1, c.key)))

/-- The forward tree of an engine-built index never stores the key
`undefined`: emissions only insert composite keys. -/
def noUndefKeys (t : KTree IxKey V) : Prop := ∀ p ∈ t, p.1 ≠ IxKey.undef

/-- Lift of `noUndefKeys` to an optional root. -/
def rootNoUndef : Option (KTree IxKey V) → Prop
  | none => True
  | some t => noUndefKeys t

/-- Modelled from the spec (3. Event block): an event's payload,
`Put{key, value}` or `Del{key}`; values are opaque payloads. -/
inductive EData
  | put (key : String) (value : Nat)
  | del (key : String)
deriving DecidableEq

/-- Modelled from the spec (3. Event block): a decoded event record
`{parents, data}`.  Events are content addressed; the model names them
by their index in a shared append-only store, so a CID is a `Nat` and
the deterministic CID tiebreak is the order on `Nat`. -/
structure PEvent where
  parents : List Nat
  data : EData
deriving DecidableEq

/-- The shared block store restricted to event blocks: an append-only
list, a CID being a position in it. -/
abbrev Store := List PEvent

/-- The parent CIDs of an event, empty for an unresolvable CID. -/
def parentsOf (s : Store) (i : Nat) : List Nat :=
  match s[i]? with
  | some e => e.parents
  | none => []

/-- Executable well-formedness of a store: every parent reference
points strictly backwards (hash-addressed parents cannot point
forward). -/
def validStoreB (s : Store) : Bool :=
  (List.range s.length).all (fun i => (parentsOf s i).all (fun p => decide (p < i)))

/-- Well-formedness of a store as a proposition over `parentsOf`. -/
def ValidStore (s : Store) : Prop :=
  ∀ i p, p ∈ parentsOf s i → p < i

/-- Ancestor traversal with explicit fuel: the event itself plus the
traversals of its parents. -/
def reachF (s : Store) : Nat → Nat → List Nat
  | 0, i => [i]
  | fuel + 1, i => i :: (parentsOf s i).flatMap (fun p => reachF s fuel p)

/-- The ancestry closure of an event (spec 4.C: ancestry is computed by
BFS through `parents`): fuel `i` suffices because parents decrease. -/
def reach (s : Store) (i : Nat) : List Nat := reachF s i i

/-- All events reachable from a head. -/
def reachHead (s : Store) (head : List Nat) : List Nat :=
  head.flatMap (fun h => reach s h)

/-- Modelled from the spec (4.C `advance(blocks, head, newEventCid)`):
1. an event already in the head leaves it unchanged; 2. if existing
head entries are ancestors of the event, they are removed and the
event added; 3. if the event is an ancestor of a head entry the head
is unchanged; 4. otherwise the event is concurrent and is added. -/
def advance (s : Store) (head : List Nat) (e : Nat) : List Nat :=
  if e ∈ head then head
  else if head.any (fun h => decide (h ∈ reach s e)) then
    head.filter (fun h => decide (h ∉ reach s e)) ++ [e]
  else if head.any (fun h => decide (e ∈ reach s h)) then head
  else head ++ [e]

/-- Advance through a list of events in order (spec 8.1: frontier
events possibly reached by different advance orders). -/
def advanceAll (s : Store) (head : List Nat) (es : List Nat) : List Nat :=
  es.foldl (fun h e => advance s h e) head

/-- The key an event is about, if the CID resolves. -/
def keyAt (s : Store) (i : Nat) : Option String :=
  match s[i]? with
  | some e =>
    match e.data with
    | EData.put k _ => some k
    | EData.del k => some k
  | none => none

/-- Whether event `i` is, within the reachable set `R`, a maximal event
for its key: no other reachable event on the same key descends from
it. -/
def maxForKeyB (s : Store) (R : List Nat) (i : Nat) : Bool :=
  decide (i ∈ R) && (keyAt s i).isSome &&
    R.all (fun j => decide (j = i) || decide (keyAt s j ≠ keyAt s i) ||
      decide (i ∉ reach s j))

/-- Modelled from the spec (4.E step 2, 9. open question 3): the
last-writer-wins winner for a key is the maximal event for that key
with the highest CID among the maximal ones (deterministic tiebreak by
CID order). -/
def winnerB (s : Store) (R : List Nat) (i : Nat) : Bool :=
  maxForKeyB s R i &&
    R.all (fun j =>
      !(decide (keyAt s j = keyAt s i) && maxForKeyB s R j) || decide (j ≤ i))

/-- Modelled from the spec (4.E, 3. prolly tree): the materialised
key-value content at a head - for every winning put event its
`(key, value)` pair, in a canonical order; deletions materialise
nothing.  The prolly tree is history independent and deterministic
(4.D), so this canonical content stands for the tree and its root
CID. -/
def matKV (s : Store) (head : List Nat) : List (String × Nat) :=
  (List.range s.length).filterMap (fun i =>
    if winnerB s (reachHead s head) i then
      match s[i]? with
      | some e =>
        match e.data with
        | EData.put k v => some (k, v)
        | EData.del _ => none
      | none => none
    else none)

/-- The materialised prolly-tree root: equal key-value content yields
equal trees and equal root CIDs (spec 4.D determinism), so the root is
identified with the canonical content. -/
def rootCid (s : Store) (head : List Nat) : List (String × Nat) := matKV s head

/-- The set of frontier events a head denotes: the reachable events
with no reachable strict descendant (spec 3. Head), in canonical
order. -/
def frontier (s : Store) (head : List Nat) : List Nat :=
  (List.range s.length).filter (fun i =>
    decide (i ∈ reachHead s head) &&
      (reachHead s head).all (fun j => decide (j = i) || decide (i ∉ reach s j)))

/-- Modelled from the spec (4.E `put`): append a `Put` event whose
parents are the current head, then set the head to that single event;
repeated over a list of puts.  Returns the final store and head. -/
def runPuts : Store → List Nat → List (String × Nat) → Store × List Nat
  | s, _head, [] => (s, _head)
  | s, head, (k, v) :: ps => runPuts (s ++ [(⟨head, EData.put k v⟩ : PEvent)]) [s.length] ps

/-- The consecutive CIDs `a, a+1, ..., a+n-1`. -/
def idsFrom : Nat → Nat → List Nat
  | _, 0 => []
  | a, n + 1 => a :: idsFrom (a + 1) n

/-- The replica-visible database state for the engine API: the shared
store and the clock head. -/
structure DbState where
  store : Store
  head : List Nat
deriving DecidableEq

/-- Modelled from the spec (6. Serialized clock handle): the
JSON-equivalent structure `{ clock: [cidString] }`.  CID strings are
in bijection with CIDs, so the model keeps the CIDs themselves. -/
structure ClockHandle where
  clock : List Nat
deriving DecidableEq

/-- Serialize a database to its clock handle (the binding layer's
`JSON.stringify(database)` keeps exactly the clock). -/
def dbGetClock (d : DbState) : ClockHandle := ⟨d.head⟩

/-- Modelled from the spec (6. `Database.setClock(head)`): replace the
head with the one from the handle; the store is untouched. -/
def dbSetClock (d : DbState) (c : ClockHandle) : DbState := ⟨d.store, c.clock⟩

/-- Modelled from the spec (4.E `getAll`): the materialised rows at the
current head. -/
def dbGetAll (d : DbState) : List (String × Nat) := matKV d.store d.head

/-- Embedded from src `husher(id, workFn, ms)` in
packages/use-fireproof/index.tsx, as a discrete-time state machine.
The state is the time until which the id stays in `husherMap`: a call
while the id is present returns the pending work without running it; a
call at or after expiry runs the work (duration `d`) and schedules the
deletion `ms` after completion. -/
def husherStep (ms d : Nat) (st : Option Nat) (t : Nat) : Option Nat × Bool :=
  match st with
  | some busyUntil =>
    if t < busyUntil then (some busyUntil, false) else (some (t + d + ms), true)
  | none => (some (t + d + ms), true)

/-- The times at which the work function actually runs when `husher`
is invoked at the given call times. -/
def husherRunsFrom (ms d : Nat) : Option Nat → List Nat → List Nat
  | _, [] => []
  | st, t :: rest =>
    match husherStep ms d st t with
    | (st1, true) => t :: husherRunsFrom ms d st1 rest
    | (st1, false) => husherRunsFrom ms d st1 rest

/-- Run times starting from an empty `husherMap`. -/
def husherRunTimes (ms d : Nat) (calls : List Nat) : List Nat :=
  husherRunsFrom ms d none calls

/-- The interval the hook passes to `husher` for the listener callback
(src: `husher('*', listenerCallback, 250)`). -/
def listenerHusherMs : Nat := 250

theorem treeDel_undef_of_noUndef {V : Type} {t : KTree IxKey V} (h : noUndefKeys t) :
    treeDel IxKey.undef t = t := by
  unfold treeDel
  rw [List.filter_eq_self]
  intro p hp
  simpa using h p hp

theorem treeBulk_oldEntries_noop {V : Type} {t : KTree IxKey V} (h : noUndefKeys t)
    (pk : List (JKey × JKey)) :
    treeBulk ixle t (oldIndexEntriesOf (V := V) pk) = t := by
  induction pk with
  | nil => rfl
  | cons x xs ih =>
    show treeBulk ixle (applyIxOp ixle t (IxOp.del IxKey.undef))
      (oldIndexEntriesOf (V := V) xs) = t
    rw [show applyIxOp ixle t (IxOp.del IxKey.undef) = t from
      treeDel_undef_of_noUndef h]
    exact ih

theorem bulkIndex_oldEntries_noop {V : Type} {t : KTree IxKey V} (h : noUndefKeys t)
    (pk : List (JKey × JKey)) :
    bulkIndex ixle (some t) (oldIndexEntriesOf (V := V) pk) = some t := by
  cases pk with
  | nil => rfl
  | cons x xs =>
    unfold bulkIndex
    rw [if_neg (by simp [oldIndexEntriesOf])]
    show some (treeBulk ixle t (oldIndexEntriesOf (V := V) (x :: xs))) = some t
    rw [treeBulk_oldEntries_noop h]

theorem indexQuery_state {V DV ε : Type} (st : IdxState V)
    (f : Doc DV → Except ε (List (JKey × V))) (result : ChangesResult DV)
    (lo hi : JKey) :
    (indexQuery st f result lo hi).2 = (updateIndex st f result).2 := by
  unfold indexQuery
  rcases h : updateIndex st f result with ⟨r, st1⟩
  cases r with
  | error e => rfl
  | ok u =>
    cases hq : queryIndexRange (ε := ε) st1.indexRoot lo hi with
    | error e => simp [hq]
    | ok rows => simp [hq]

theorem updateIndex_empty_rows {V DV ε : Type} (st : IdxState V)
    (f : Doc DV → Except ε (List (JKey × V))) (h : Nat) :
    (updateIndex st f ⟨[], h⟩).2.indexRoot = st.indexRoot ∧
      (updateIndex st f ⟨[], h⟩).2.byIdRoot = st.byIdRoot := by
  unfold updateIndex
  cases hd : st.dbHead with
  | none =>
    unfold updateIndexRest
    simp [indexEntriesForChanges, byIdIndexEntriesOf, bulkIndex]
  | some h0 =>
    cases hb : st.byIdRoot with
    | none => simp [indexEntriesForOldChanges, hb]
    | some bt =>
      simp only [indexEntriesForOldChanges, List.map_nil, treeGetMany,
        List.filterMap_nil, oldIndexEntriesOf, bulkIndex, List.isEmpty_nil,
        if_true, updateIndexRest, indexEntriesForChanges, byIdIndexEntriesOf]
      simp

theorem byIdIndexEntriesOf_emits {V : Type} (key : JKey) (emits : List (JKey × V)) :
    byIdIndexEntriesOf (emits.map (fun kv => IxOp.put (IxKey.comp kv.1 key) kv.2)) =
      emits.map (fun kv => IxOp.put key (kv.1, key)) := by
  induction emits with
  | nil => rfl
  | cons kv rest ih => simp [byIdIndexEntriesOf] at ih ⊢; exact ih

theorem byIdIndexEntriesOf_append {V : Type} (l1 l2 : List (IxOp IxKey V)) :
    byIdIndexEntriesOf (l1 ++ l2) = byIdIndexEntriesOf l1 ++ byIdIndexEntriesOf l2 :=
  List.filterMap_append l1 l2 _

/-- C6: for every batch of changes processed by an index refresh,
exactly the non-deleted changes are passed through the map function,
each as the document `{_id: key, ...value-fields}`; each emission
`(k, v)` yields the forward entry `{key: [k, docId], value: v}` and
the byId entry `{key: docId, value: [k, docId]}`, while changes
flagged `del` produce no new entries. -/
theorem indexEntries_match_spec {DV V ε : Type} (changes : List (Change DV))
    (f : Doc DV → List (JKey × V)) :
    indexEntriesForChanges (ε := ε) changes (fun d => Except.ok (f d)) =
        Except.ok (specForwardEntries changes f) ∧
      byIdIndexEntriesOf (specForwardEntries changes f) = specByIdEntries changes f := by
  constructor
  · induction changes with
    | nil => rfl
    | cons c rest ih =>
      by_cases hc : c.del = true
      · simpa [indexEntriesForChanges, specForwardEntries, hc] using ih
      · simp only [Bool.not_eq_true] at hc
        simp [indexEntriesForChanges, specForwardEntries, hc, ih]
  · induction changes with
    | nil => rfl
    | cons c rest ih =>
      by_cases hc : c.del = true
      · simpa [specForwardEntries, specByIdEntries, hc] using ih
      · simp only [Bool.not_eq_true] at hc
        simp only [specForwardEntries, specByIdEntries, List.filter_cons, hc,
          Bool.not_false, if_true, List.flatMap_cons, byIdIndexEntriesOf_append,
          byIdIndexEntriesOf_emits]
        rw [show specForwardEntries rest f =
          (rest.filter (fun c => !c.del)).flatMap
            (fun c => (f (makeDoc c)).map
              (fun kv => IxOp.put (IxKey.comp kv.1 c.key) kv.2)) from rfl] at ih
        rw [ih]
        rfl

/-- C9: applying `bulkIndex` with an empty list of entries returns the
input root unchanged; consequently a query against a database with no
new changes (an empty `changesSince` row set) leaves `indexRoot` and
`byIdRoot` identical to their prior values. -/
theorem bulkIndex_empty_and_query_noop (V DV ε : Type) (κ : Type) [DecidableEq κ]
    (le : κ → κ → Bool) :
    (∀ root : Option (KTree κ V), bulkIndex le root [] = root) ∧
    ∀ (st : IdxState V) (f : Doc DV → Except ε (List (JKey × V))) (h : Nat)
      (lo hi : JKey),
      (indexQuery st f ⟨[], h⟩ lo hi).2.indexRoot = st.indexRoot ∧
        (indexQuery st f ⟨[], h⟩ lo hi).2.byIdRoot = st.byIdRoot := by
  constructor
  · intro root; rfl
  · intro st f h lo hi
    rw [indexQuery_state]
    exact updateIndex_empty_rows st f h

/-- C10: refuting evaluation for the claim that a range query on an
index whose forward root is absent returns `{rows: []}`: on a fresh
index over an empty database the refresh leaves `indexRoot` null and
`queryIndexRange` then throws a TypeError while destructuring
`{ cid }` of null, before its `if (!cid)` guard can run. -/
theorem null_root_query_throws :
    indexQuery (⟨none, none, none⟩ : IdxState (Option Int))
        (fun d => Except.ok [(JKey.num d.fields, none)] :
          Doc Int → Except Unit (List (JKey × Option Int)))
        ⟨[], 7⟩ (JKey.num 0) (JKey.num 100) =
      (Except.error IdxErr.typeError, ⟨none, none, some 7⟩) := rfl

/-- C3: refuting evaluation for the claim that the invalidation batch
contains `{key: [emittedKey, docId], del: true}`: for the prior
emission `[20, "u"]` the batch built by `#updateIndex` is
`[{key: undefined, del: true}]` and does not contain the entry with
the prior composite key. -/
theorem invalidation_entry_key_is_undefined :
    oldIndexEntriesOf (V := Option Int) [(JKey.num 20, JKey.str "u")] =
        [IxOp.del IxKey.undef] ∧
      IxOp.del (IxKey.comp (JKey.num 20) (JKey.str "u")) ∉
        oldIndexEntriesOf (V := Option Int) [(JKey.num 20, JKey.str "u")] :=
  ⟨rfl, by decide⟩

/-- C2: refuting evaluation on the spec's scenario S5: after putting
`{_id:"u", age:20}`, refreshing, then updating to `{_id:"u", age:30}`
and refreshing, `query({range:[20,20]})` still returns the stale row
for the overwritten emission `[20, "u"]` (because the invalidation
deleted the key `undefined` instead of `[20, "u"]`), although the
currently-emitted forward entries for the document are exactly the
key-30 entry. -/
theorem stale_emission_still_returned :
    (indexQuery
        (updateIndex
          (updateIndex (⟨none, none, none⟩ : IdxState (Option Int))
            (fun d => Except.ok [(JKey.num d.fields, none)] :
              Doc Int → Except Unit (List (JKey × Option Int)))
            ⟨[⟨JKey.str "u", (20 : Int), false⟩], 1⟩).2
          (fun d => Except.ok [(JKey.num d.fields, none)] :
            Doc Int → Except Unit (List (JKey × Option Int)))
          ⟨[⟨JKey.str "u", (30 : Int), false⟩], 2⟩).2
        (fun d => Except.ok [(JKey.num d.fields, none)] :
          Doc Int → Except Unit (List (JKey × Option Int)))
        ⟨[], 2⟩ (JKey.num 20) (JKey.num 20)).1 =
      Except.ok [⟨JKey.str "u", JKey.num 20, (none : Option Int)⟩] ∧
    specForwardEntries [⟨JKey.str "u", (30 : Int), false⟩]
        (fun d => [(JKey.num d.fields, (none : Option Int))]) =
      [IxOp.put (IxKey.comp (JKey.num 30) (JKey.str "u")) none] :=
  ⟨rfl, rfl⟩

/-- C5: refuting counterexample for the claim that a tree row
`{id, key, row}` whose `id` is the docId and whose `key` is the
emitted key is returned as `{id: docId, key: emittedKey, value: row}`:
`Index.query` swaps the two fields, so on the row
`{id: 20, key: "u", row: null}` the claimed output (preserving `id`
and `key`) is not what the code returns. -/
theorem query_row_translate_not_identity :
    queryRowTranslate (V := Option Int) ⟨JKey.num 20, JKey.str "u", none⟩ ≠
      (⟨JKey.num 20, JKey.str "u", none⟩ : QRow (Option Int)) := by
  decide

/-- C5 (amended): the library row's `id` holds the emitted key and its
`key` holds the doc id, and `Index.query` swaps the two fields, so
every range-query result row reaches the caller as
`{id: docId, key: emittedKey, value: emittedValue}`: the translation
maps each row `r` to `{id: r.key, key: r.id, value: r.row}`, and every
composite tree entry `([k, d], v)` inside the range appears in the
output as `{id: d, key: k, value: v}`. -/
theorem query_rows_swap_to_docid (V : Type) (t : KTree IxKey V) (lo hi : JKey) :
    ((rangeScan t lo hi).map queryRowTranslate =
      (rangeScan t lo hi).map (fun r => ⟨r.key, r.id, r.row⟩)) ∧
    ∀ k d v, (IxKey.comp k d, v) ∈ t → (jle lo k && jle k hi) = true →
      (⟨d, k, v⟩ : QRow V) ∈ (rangeScan t lo hi).map queryRowTranslate := by
  constructor
  · rfl
  · intro k d v hmem hrange
    refine List.mem_map.mpr ⟨⟨k, d, v⟩, ?_, rfl⟩
    refine List.mem_filterMap.mpr ⟨(IxKey.comp k d, v), hmem, ?_⟩
    simp [hrange]

theorem query_rows_swap_to_docid_witness :
    ((IxKey.comp (JKey.num 20) (JKey.str "u"), (none : Option Int)) ∈
        ([(IxKey.comp (JKey.num 20) (JKey.str "u"), (none : Option Int))] :
          KTree IxKey (Option Int))) ∧
      (⟨JKey.str "u", JKey.num 20, (none : Option Int)⟩ : QRow (Option Int)) ∈
        (rangeScan [(IxKey.comp (JKey.num 20) (JKey.str "u"), (none : Option Int))]
          (JKey.num 20) (JKey.num 20)).map queryRowTranslate :=
  ⟨by decide,
    (query_rows_swap_to_docid (Option Int)
      [(IxKey.comp (JKey.num 20) (JKey.str "u"), none)]
      (JKey.num 20) (JKey.num 20)).2 (JKey.num 20) (JKey.str "u") none
      (by decide) (by decide)⟩

/-- C4: if the user map function throws during an index refresh, the
error is propagated to the query caller and the index state
(`indexRoot`, `byIdRoot` and `dbHead`) is exactly what it was before
the refresh began.  The hypotheses are the engine invariants of a
reachable index state: if `dbHead` is set the byId root exists (so the
refresh reaches the map function), a byId root implies a forward root,
and engine-built forward trees never store the key `undefined` (so the
preceding invalidation batch, which only deletes `undefined`, leaves
the forward root unchanged). -/
theorem mapFn_throw_leaves_state_unchanged {V DV ε : Type}
    (st : IdxState V) (mapFun : Doc DV → Except ε (List (JKey × V)))
    (result : ChangesResult DV) (lo hi : JKey) (e : ε)
    (hthrow : indexEntriesForChanges result.rows mapFun = Except.error e)
    (hstep2 : st.dbHead = none ∨ st.byIdRoot.isSome)
    (hroots : st.byIdRoot.isSome → st.indexRoot.isSome)
    (hundef : rootNoUndef st.indexRoot) :
    indexQuery st mapFun result lo hi = (Except.error (IdxErr.userError e), st) := by
  have hrest : updateIndexRest st mapFun result =
      (Except.error (IdxErr.userError e), st) := by
    unfold updateIndexRest
    rw [hthrow]
  have hupd : updateIndex st mapFun result =
      (Except.error (IdxErr.userError e), st) := by
    unfold updateIndex
    cases hd : st.dbHead with
    | none => exact hrest
    | some h0 =>
      rcases hstep2 with hcontra | hbs
      · rw [hd] at hcontra; cases hcontra
      obtain ⟨bt, hbt⟩ := Option.isSome_iff_exists.mp hbs
      obtain ⟨ft, hft⟩ := Option.isSome_iff_exists.mp (hroots hbs)
      have hnu : noUndefKeys ft := by
        rw [hft] at hundef; exact hundef
      have hbk : bulkIndex ixle st.indexRoot
          (oldIndexEntriesOf (treeGetMany bt (result.rows.map (fun r => r.key)))) =
          st.indexRoot := by
        rw [hft]; exact bulkIndex_oldEntries_noop hnu _
      rw [hbt]
      show updateIndexRest
        ⟨bulkIndex ixle st.indexRoot
            (oldIndexEntriesOf (treeGetMany bt (result.rows.map (fun r => r.key)))),
          some bt, some h0⟩ mapFun result = (Except.error (IdxErr.userError e), st)
      rw [hbk, ← hbt, ← hd]
      exact hrest
  unfold indexQuery
  rw [hupd]

theorem mapFn_throw_leaves_state_unchanged_witness :
    indexEntriesForChanges
        (⟨[⟨JKey.str "u", (30 : Int), false⟩], 2⟩ : ChangesResult Int).rows
        (fun _ => Except.error () :
          Doc Int → Except Unit (List (JKey × Option Int))) =
        Except.error () ∧
      indexQuery
        (⟨some [(IxKey.comp (JKey.num 20) (JKey.str "u"), none)],
          some [(JKey.str "u", (JKey.num 20, JKey.str "u"))], some 1⟩ :
            IdxState (Option Int))
        (fun _ => Except.error ())
        ⟨[⟨JKey.str "u", (30 : Int), false⟩], 2⟩ (JKey.num 20) (JKey.num 20) =
      (Except.error (IdxErr.userError ()),
        ⟨some [(IxKey.comp (JKey.num 20) (JKey.str "u"), none)],
          some [(JKey.str "u", (JKey.num 20, JKey.str "u"))], some 1⟩) :=
  ⟨rfl,
    mapFn_throw_leaves_state_unchanged
      ⟨some [(IxKey.comp (JKey.num 20) (JKey.str "u"), none)],
        some [(JKey.str "u", (JKey.num 20, JKey.str "u"))], some 1⟩
      (fun _ => Except.error ())
      ⟨[⟨JKey.str "u", (30 : Int), false⟩], 2⟩ (JKey.num 20) (JKey.num 20) ()
      rfl (Or.inr rfl) (fun _ => rfl) (by simp [rootNoUndef, noUndefKeys])⟩

theorem parentsOf_of_ge {s : Store} {i : Nat} (h : s.length ≤ i) :
    parentsOf s i = [] := by
  unfold parentsOf
  rw [List.getElem?_eq_none h]

theorem validStore_of_validStoreB {s : Store} (h : validStoreB s = true) :
    ValidStore s := by
  intro i p hp
  by_cases hi : i < s.length
  · have h1 := List.all_eq_true.mp h i (List.mem_range.mpr hi)
    have h2 := List.all_eq_true.mp h1 p hp
    exact of_decide_eq_true h2
  · rw [parentsOf_of_ge (le_of_not_lt hi)] at hp
    cases hp

theorem validStore_nil : ValidStore ([] : Store) := by
  intro i p hp
  rw [parentsOf_of_ge (by simp)] at hp
  cases hp

theorem parentsOf_zero {s : Store} (hv : ValidStore s) : parentsOf s 0 = [] := by
  cases hp : parentsOf s 0 with
  | nil => rfl
  | cons a l =>
    exact absurd (hv 0 a (by rw [hp]; exact List.mem_cons_self a l))
      (Nat.not_lt_zero a)

theorem flatMap_congr {α β : Type} {l : List α} {f g : α → List β}
    (h : ∀ a ∈ l, f a = g a) : l.flatMap f = l.flatMap g := by
  induction l with
  | nil => rfl
  | cons a t ih =>
    rw [List.flatMap_cons, List.flatMap_cons, h a (List.mem_cons_self a t),
      ih (fun x hx => h x (List.mem_cons_of_mem a hx))]

theorem reachF_stable {s : Store} (hv : ValidStore s) :
    ∀ i f, i ≤ f → reachF s f i = reachF s i i := by
  intro i
  induction i using Nat.strong_induction_on with
  | _ i ih =>
    intro f hf
    cases i with
    | zero =>
      cases f with
      | zero => rfl
      | succ f1 => simp [reachF, parentsOf_zero hv]
    | succ i1 =>
      cases f with
      | zero => exact absurd hf (by omega)
      | succ f1 =>
        show (i1 + 1) :: (parentsOf s (i1 + 1)).flatMap (fun p => reachF s f1 p) =
          (i1 + 1) :: (parentsOf s (i1 + 1)).flatMap (fun p => reachF s i1 p)
        congr 1
        apply flatMap_congr
        intro p hp
        have hpi : p < i1 + 1 := hv _ p hp
        rw [ih p hpi f1 (by omega), ih p hpi i1 (by omega)]

theorem reach_unfold {s : Store} (hv : ValidStore s) (i : Nat) :
    reach s i = i :: (parentsOf s i).flatMap (fun p => reach s p) := by
  cases i with
  | zero => simp [reach, reachF, parentsOf_zero hv]
  | succ i1 =>
    show (i1 + 1) :: (parentsOf s (i1 + 1)).flatMap (fun p => reachF s i1 p) = _
    congr 1
    apply flatMap_congr
    intro p hp
    exact reachF_stable hv p i1 (Nat.le_of_lt_succ (hv _ p hp))

theorem self_mem_reach (s : Store) (i : Nat) : i ∈ reach s i := by
  cases i with
  | zero => simp [reach, reachF]
  | succ i1 => exact List.mem_cons_self _ _

theorem reach_le {s : Store} (hv : ValidStore s) :
    ∀ i, ∀ j ∈ reach s i, j ≤ i := by
  intro i
  induction i using Nat.strong_induction_on with
  | _ i ih =>
    intro j hj
    rw [reach_unfold hv] at hj
    rcases List.mem_cons.mp hj with rfl | hj2
    · exact le_refl j
    · obtain ⟨p, hp, hjp⟩ := List.mem_flatMap.mp hj2
      have hpi := hv i p hp
      exact le_trans (ih p hpi j hjp) (Nat.le_of_lt hpi)

theorem reach_sub_of_parent {s : Store} (hv : ValidStore s) {b p : Nat}
    (hp : p ∈ parentsOf s b) : ∀ x ∈ reach s p, x ∈ reach s b := by
  intro x hx
  rw [reach_unfold hv b]
  exact List.mem_cons_of_mem _ (List.mem_flatMap.mpr ⟨p, hp, hx⟩)

theorem reach_trans {s : Store} (hv : ValidStore s) :
    ∀ b a, a ∈ reach s b → ∀ x ∈ reach s a, x ∈ reach s b := by
  intro b
  induction b using Nat.strong_induction_on with
  | _ b ih =>
    intro a ha x hx
    rw [reach_unfold hv b] at ha
    rcases List.mem_cons.mp ha with rfl | ha2
    · exact hx
    · obtain ⟨p, hp, hap⟩ := List.mem_flatMap.mp ha2
      exact reach_sub_of_parent hv hp x (ih p (hv b p hp) a hap x hx)

theorem parentsOf_append {s ext : Store} {i : Nat} (h : i < s.length) :
    parentsOf (s ++ ext) i = parentsOf s i := by
  unfold parentsOf
  rw [List.getElem?_append_left h]

theorem validStore_sub {s ext : Store} (hv : ValidStore (s ++ ext)) :
    ValidStore s := by
  intro i p hp
  by_cases hi : i < s.length
  · exact hv i p (by rw [parentsOf_append hi]; exact hp)
  · rw [parentsOf_of_ge (le_of_not_lt hi)] at hp
    cases hp

theorem reachF_append {s ext : Store} (hv : ValidStore (s ++ ext)) :
    ∀ f i, i < s.length → reachF (s ++ ext) f i = reachF s f i := by
  intro f
  induction f with
  | zero => intro i _; rfl
  | succ f1 ih =>
    intro i hi
    show i :: (parentsOf (s ++ ext) i).flatMap (fun p => reachF (s ++ ext) f1 p) =
      i :: (parentsOf s i).flatMap (fun p => reachF s f1 p)
    rw [parentsOf_append hi]
    congr 1
    apply flatMap_congr
    intro p hp
    have hpi : p < i := hv i p (by rw [parentsOf_append hi]; exact hp)
    exact ih p (lt_trans hpi hi)

theorem reach_append {s ext : Store} (hv : ValidStore (s ++ ext)) {i : Nat}
    (hi : i < s.length) : reach (s ++ ext) i = reach s i :=
  reachF_append hv i i hi

theorem mem_reachHead {s : Store} {head : List Nat} {j : Nat} :
    j ∈ reachHead s head ↔ ∃ h ∈ head, j ∈ reach s h := List.mem_flatMap

theorem advance_reach {s : Store} (hv : ValidStore s) (head : List Nat)
    (e j : Nat) :
    j ∈ reachHead s (advance s head e) ↔ j ∈ reachHead s head ∨ j ∈ reach s e := by
  unfold advance
  split_ifs with h1 h2 h3
  · constructor
    · exact Or.inl
    · rintro (h | h)
      · exact h
      · exact mem_reachHead.mpr ⟨e, h1, h⟩
  · constructor
    · intro h
      obtain ⟨x, hx, hjx⟩ := mem_reachHead.mp h
      rcases List.mem_append.mp hx with hxf | hxe
      · exact Or.inl (mem_reachHead.mpr ⟨x, (List.mem_filter.mp hxf).1, hjx⟩)
      · rw [List.mem_singleton.mp hxe] at hjx
        exact Or.inr hjx
    · rintro (h | h)
      · obtain ⟨x, hx, hjx⟩ := mem_reachHead.mp h
        by_cases hxe : x ∈ reach s e
        · refine mem_reachHead.mpr ⟨e, List.mem_append.mpr (Or.inr ?_), ?_⟩
          · exact List.mem_singleton.mpr rfl
          · exact reach_trans hv e x hxe j hjx
        · refine mem_reachHead.mpr ⟨x, List.mem_append.mpr (Or.inl ?_), hjx⟩
          exact List.mem_filter.mpr ⟨hx, by simpa using hxe⟩
      · refine mem_reachHead.mpr ⟨e, List.mem_append.mpr (Or.inr ?_), h⟩
        exact List.mem_singleton.mpr rfl
  · constructor
    · exact Or.inl
    · rintro (h | h)
      · exact h
      · obtain ⟨x, hx, hex⟩ := List.any_eq_true.mp h3
        have hex2 : e ∈ reach s x := of_decide_eq_true hex
        exact mem_reachHead.mpr ⟨x, hx, reach_trans hv x e hex2 j h⟩
  · constructor
    · intro h
      obtain ⟨x, hx, hjx⟩ := mem_reachHead.mp h
      rcases List.mem_append.mp hx with hxh | hxe
      · exact Or.inl (mem_reachHead.mpr ⟨x, hxh, hjx⟩)
      · rw [List.mem_singleton.mp hxe] at hjx
        exact Or.inr hjx
    · rintro (h | h)
      · obtain ⟨x, hx, hjx⟩ := mem_reachHead.mp h
        exact mem_reachHead.mpr ⟨x, List.mem_append.mpr (Or.inl hx), hjx⟩
      · refine mem_reachHead.mpr ⟨e, List.mem_append.mpr (Or.inr ?_), h⟩
        exact List.mem_singleton.mpr rfl

theorem advanceAll_reach {s : Store} (hv : ValidStore s) :
    ∀ (es head : List Nat) (j : Nat),
      j ∈ reachHead s (advanceAll s head es) ↔
        j ∈ reachHead s head ∨ ∃ e ∈ es, j ∈ reach s e := by
  intro es
  induction es with
  | nil => intro head j; simp [advanceAll]
  | cons e rest ih =>
    intro head j
    show j ∈ reachHead s (advanceAll s (advance s head e) rest) ↔ _
    rw [ih (advance s head e) j, advance_reach hv head e j]
    simp only [List.mem_cons]
    constructor
    · rintro ((h | h) | ⟨x, hx, hj⟩)
      · exact Or.inl h
      · exact Or.inr ⟨e, Or.inl rfl, h⟩
      · exact Or.inr ⟨x, Or.inr hx, hj⟩
    · rintro (h | ⟨x, hx2 | hx2, hj⟩)
      · exact Or.inl (Or.inl h)
      · rw [hx2] at hj
        exact Or.inl (Or.inr hj)
      · exact Or.inr ⟨x, hx2, hj⟩

theorem runPuts_len : ∀ (ps : List (String × Nat)) (s : Store) (head : List Nat),
    (runPuts s head ps).1.length = s.length + ps.length := by
  intro ps
  induction ps with
  | nil => intro s head; simp [runPuts]
  | cons kv rest ih =>
    intro s head
    rcases kv with ⟨k, v⟩
    show (runPuts (s ++ [(⟨head, EData.put k v⟩ : PEvent)]) [s.length] rest).1.length = _
    rw [ih]
    simp
    omega

theorem validStore_snoc {s : Store} {head : List Nat} {d : EData}
    (hv : ValidStore s) (hb : ∀ h ∈ head, h < s.length) :
    ValidStore (s ++ [⟨head, d⟩]) := by
  intro i p hp
  by_cases hi : i < s.length
  · rw [parentsOf_append hi] at hp
    exact hv i p hp
  · by_cases hieq : i = s.length
    · subst hieq
      have hpar : parentsOf (s ++ [⟨head, d⟩]) s.length = head := by
        unfold parentsOf
        rw [List.getElem?_concat_length]
      rw [hpar] at hp
      exact hb p hp
    · rw [parentsOf_of_ge (by simp; omega)] at hp
      cases hp

theorem parentsOf_snoc {s : Store} {head : List Nat} {d : EData} :
    parentsOf (s ++ [⟨head, d⟩]) s.length = head := by
  unfold parentsOf
  rw [List.getElem?_concat_length]

theorem runPuts_valid : ∀ (ps : List (String × Nat)) (s : Store) (head : List Nat),
    ValidStore s → (∀ h ∈ head, h < s.length) →
    ValidStore (runPuts s head ps).1 ∧
      ∀ h ∈ (runPuts s head ps).2, h < (runPuts s head ps).1.length := by
  intro ps
  induction ps with
  | nil => intro s head hv hb; exact ⟨hv, hb⟩
  | cons kv rest ih =>
    intro s head hv hb
    rcases kv with ⟨k, v⟩
    apply ih
    · exact validStore_snoc hv hb
    · intro h hh
      rw [List.mem_singleton.mp hh]
      simp

theorem runPuts_app : ∀ (ps : List (String × Nat)) (s : Store) (head : List Nat),
    ∃ ext, (runPuts s head ps).1 = s ++ ext := by
  intro ps
  induction ps with
  | nil => intro s head; exact ⟨[], by simp [runPuts]⟩
  | cons kv rest ih =>
    intro s head
    rcases kv with ⟨k, v⟩
    obtain ⟨ext, hext⟩ := ih (s ++ [(⟨head, EData.put k v⟩ : PEvent)]) [s.length]
    refine ⟨[(⟨head, EData.put k v⟩ : PEvent)] ++ ext, ?_⟩
    show (runPuts (s ++ [(⟨head, EData.put k v⟩ : PEvent)]) [s.length] rest).1 = _
    rw [hext, List.append_assoc]

theorem mem_idsFrom : ∀ (n a j : Nat), j ∈ idsFrom a n ↔ a ≤ j ∧ j < a + n := by
  intro n
  induction n with
  | zero =>
    intro a j
    show j ∈ ([] : List Nat) ↔ _
    constructor
    · intro h
      cases h
    · intro h
      omega
  | succ n1 ih =>
    intro a j
    show j ∈ a :: idsFrom (a + 1) n1 ↔ _
    rw [List.mem_cons, ih (a + 1) j]
    omega

theorem reach_new_event {s : Store} {head : List Nat} {d : EData}
    (hv : ValidStore s) (hb : ∀ h ∈ head, h < s.length) (x : Nat) :
    x ∈ reach (s ++ [⟨head, d⟩]) s.length ↔ x = s.length ∨ x ∈ reachHead s head := by
  have hv1 : ValidStore (s ++ [⟨head, d⟩]) := validStore_snoc hv hb
  rw [reach_unfold hv1 s.length, parentsOf_snoc, List.mem_cons]
  constructor
  · rintro (rfl | hx)
    · exact Or.inl rfl
    · obtain ⟨h, hh, hxh⟩ := List.mem_flatMap.mp hx
      refine Or.inr (mem_reachHead.mpr ⟨h, hh, ?_⟩)
      rw [← reach_append hv1 (hb h hh)]
      exact hxh
  · rintro (rfl | hx)
    · exact Or.inl rfl
    · obtain ⟨h, hh, hxh⟩ := mem_reachHead.mp hx
      refine Or.inr (List.mem_flatMap.mpr ⟨h, hh, ?_⟩)
      rw [reach_append hv1 (hb h hh)]
      exact hxh

theorem reachHead_singleton {s : Store} {a x : Nat} :
    x ∈ reachHead s [a] ↔ x ∈ reach s a := by
  simp [reachHead]

theorem runPuts_reach : ∀ (ps : List (String × Nat)) (s : Store) (head : List Nat),
    ValidStore s → (∀ h ∈ head, h < s.length) → ∀ j,
    (j ∈ reachHead (runPuts s head ps).1 (runPuts s head ps).2 ↔
      j ∈ reachHead s head ∨ j ∈ idsFrom s.length ps.length) := by
  intro ps
  induction ps with
  | nil =>
    intro s head hv hb j
    show j ∈ reachHead s head ↔ j ∈ reachHead s head ∨ j ∈ ([] : List Nat)
    simp
  | cons kv rest ih =>
    intro s head hv hb j
    rcases kv with ⟨k, v⟩
    have hv1 : ValidStore (s ++ [(⟨head, EData.put k v⟩ : PEvent)]) := validStore_snoc hv hb
    have hb1 : ∀ h ∈ [s.length], h < (s ++ [(⟨head, EData.put k v⟩ : PEvent)]).length := by
      intro h hh
      rw [List.mem_singleton.mp hh]
      simp
    have Hih := ih (s ++ [(⟨head, EData.put k v⟩ : PEvent)]) [s.length] hv1 hb1 j
    show j ∈ reachHead (runPuts (s ++ [(⟨head, EData.put k v⟩ : PEvent)]) [s.length] rest).1
        (runPuts (s ++ [(⟨head, EData.put k v⟩ : PEvent)]) [s.length] rest).2 ↔ _
    rw [Hih]
    have hsing : j ∈ reachHead (s ++ [(⟨head, EData.put k v⟩ : PEvent)]) [s.length] ↔
        j = s.length ∨ j ∈ reachHead s head := by
      rw [reachHead_singleton]
      exact reach_new_event hv hb j
    rw [hsing]
    have hids : j ∈ idsFrom s.length (rest.length + 1) ↔
        j = s.length ∨ j ∈ idsFrom (s.length + 1) rest.length := by
      show j ∈ s.length :: idsFrom (s.length + 1) rest.length ↔ _
      exact List.mem_cons
    have hlen : (s ++ [(⟨head, EData.put k v⟩ : PEvent)]).length = s.length + 1 := by simp
    rw [show (rest.length + 1 : Nat) = ((k, v) :: rest).length from rfl] at hids
    rw [hlen, hids]
    tauto

theorem runPuts_created_reach :
    ∀ (ps : List (String × Nat)) (s : Store) (head : List Nat),
    ValidStore s → (∀ h ∈ head, h < s.length) →
    ∀ e ∈ idsFrom s.length ps.length, ∀ j ∈ reach (runPuts s head ps).1 e,
      j ∈ reachHead s head ∨ j ∈ idsFrom s.length ps.length := by
  intro ps
  induction ps with
  | nil =>
    intro s head _ _ e he
    cases he
  | cons kv rest ih =>
    intro s head hv hb e he j hj
    rcases kv with ⟨k, v⟩
    have hv1 : ValidStore (s ++ [(⟨head, EData.put k v⟩ : PEvent)]) := validStore_snoc hv hb
    have hb1 : ∀ h ∈ [s.length], h < (s ++ [(⟨head, EData.put k v⟩ : PEvent)]).length := by
      intro h hh
      rw [List.mem_singleton.mp hh]
      simp
    have hv2 := (runPuts_valid rest (s ++ [(⟨head, EData.put k v⟩ : PEvent)]) [s.length] hv1 hb1).1
    obtain ⟨ext2, hext2⟩ := runPuts_app rest (s ++ [(⟨head, EData.put k v⟩ : PEvent)]) [s.length]
    have hlen : (s ++ [(⟨head, EData.put k v⟩ : PEvent)]).length = s.length + 1 := by simp
    rcases List.mem_cons.mp
        (show e ∈ s.length :: idsFrom (s.length + 1) rest.length from he) with rfl | he2
    · have hel : s.length < (s ++ [(⟨head, EData.put k v⟩ : PEvent)]).length := by
        rw [hlen]
        omega
      have hrw : reach (runPuts (s ++ [(⟨head, EData.put k v⟩ : PEvent)]) [s.length] rest).1
            s.length =
          reach (s ++ [(⟨head, EData.put k v⟩ : PEvent)]) s.length := by
        rw [hext2]
        exact reach_append (hext2 ▸ hv2) hel
      rw [show (runPuts s head ((k, v) :: rest)).1 =
        (runPuts (s ++ [(⟨head, EData.put k v⟩ : PEvent)]) [s.length] rest).1 from rfl, hrw] at hj
      rcases (reach_new_event hv hb j).mp hj with rfl | hjh
      · right
        rw [mem_idsFrom]
        constructor
        · exact le_refl _
        · simp
      · exact Or.inl hjh
    · have he3 : e ∈ idsFrom (s ++ [(⟨head, EData.put k v⟩ : PEvent)]).length rest.length := by
        rw [hlen]
        exact he2
      have hj2 : j ∈ reach (runPuts (s ++ [(⟨head, EData.put k v⟩ : PEvent)]) [s.length] rest).1 e := hj
      have := ih (s ++ [(⟨head, EData.put k v⟩ : PEvent)]) [s.length] hv1 hb1 e he3 j hj2
      rcases this with hjh | hjid
      · rw [reachHead_singleton, reach_new_event hv hb] at hjh
        rcases hjh with rfl | hjh2
        · right
          rw [mem_idsFrom]
          constructor
          · exact le_refl _
          · simp
        · exact Or.inl hjh2
      · right
        rw [hlen, mem_idsFrom] at hjid
        rw [mem_idsFrom]
        show s.length ≤ j ∧ j < s.length + ((k, v) :: rest).length
        simp only [List.length_cons]
        omega

theorem list_all_ext {α : Type} {p : α → Bool} {l1 l2 : List α}
    (h : ∀ x, x ∈ l1 ↔ x ∈ l2) : l1.all p = l2.all p := by
  cases h1 : l1.all p <;> cases h2 : l2.all p
  · rfl
  · exfalso
    rw [Bool.eq_false_iff] at h1
    apply h1
    rw [List.all_eq_true] at h2 ⊢
    exact fun x hx => h2 x ((h x).mp hx)
  · exfalso
    rw [Bool.eq_false_iff] at h2
    apply h2
    rw [List.all_eq_true] at h1 ⊢
    exact fun x hx => h1 x ((h x).mpr hx)
  · rfl

theorem list_all_congr {α : Type} {p q : α → Bool} {l : List α}
    (h : ∀ x ∈ l, p x = q x) : l.all p = l.all q := by
  induction l with
  | nil => rfl
  | cons a t ih =>
    rw [List.all_cons, List.all_cons, h a (List.mem_cons_self a t),
      ih (fun x hx => h x (List.mem_cons_of_mem a hx))]

theorem filterMap_congr_mem {α β : Type} {l : List α} {f g : α → Option β}
    (h : ∀ a ∈ l, f a = g a) : l.filterMap f = l.filterMap g := by
  induction l with
  | nil => rfl
  | cons a t ih =>
    rw [List.filterMap_cons, List.filterMap_cons, h a (List.mem_cons_self a t),
      ih (fun x hx => h x (List.mem_cons_of_mem a hx))]

theorem maxForKeyB_ext {s : Store} {R1 R2 : List Nat}
    (h : ∀ x, x ∈ R1 ↔ x ∈ R2) (i : Nat) :
    maxForKeyB s R1 i = maxForKeyB s R2 i := by
  unfold maxForKeyB
  rw [decide_eq_decide.mpr (h i), list_all_ext h]

theorem winnerB_ext {s : Store} {R1 R2 : List Nat}
    (h : ∀ x, x ∈ R1 ↔ x ∈ R2) (i : Nat) :
    winnerB s R1 i = winnerB s R2 i := by
  unfold winnerB
  rw [maxForKeyB_ext h i, list_all_ext h]
  congr 1
  apply list_all_congr
  intro j hj
  rw [maxForKeyB_ext h j]

theorem matKV_ext {s : Store} {h1 h2 : List Nat}
    (h : ∀ x, x ∈ reachHead s h1 ↔ x ∈ reachHead s h2) :
    matKV s h1 = matKV s h2 := by
  unfold matKV
  apply filterMap_congr_mem
  intro i _
  rw [winnerB_ext h i]

theorem frontier_ext {s : Store} {h1 h2 : List Nat}
    (h : ∀ x, x ∈ reachHead s h1 ↔ x ∈ reachHead s h2) :
    frontier s h1 = frontier s h2 := by
  unfold frontier
  apply List.filter_congr
  intro i _
  rw [decide_eq_decide.mpr (h i), list_all_ext h]

theorem reachHead_append {s ext : Store} (hv : ValidStore (s ++ ext))
    {head : List Nat} (hb : ∀ h ∈ head, h < s.length) :
    reachHead (s ++ ext) head = reachHead s head := by
  unfold reachHead
  apply flatMap_congr
  intro h hh
  exact reach_append hv (hb h hh)

theorem reachHead_bound {s : Store} (hv : ValidStore s) {head : List Nat}
    {n : Nat} (hb : ∀ h ∈ head, h < n) : ∀ j ∈ reachHead s head, j < n := by
  intro j hj
  obtain ⟨h, hh, hjh⟩ := mem_reachHead.mp hj
  exact lt_of_le_of_lt (reach_le hv h j hjh) (hb h hh)

theorem keyAt_append {s ext : Store} {i : Nat} (h : i < s.length) :
    keyAt (s ++ ext) i = keyAt s i := by
  unfold keyAt
  rw [List.getElem?_append_left h]

theorem filterMap_range_extend {β : Type} {f : Nat → Option β} {n m : Nat}
    (hnm : n ≤ m) (h : ∀ i, n ≤ i → f i = none) :
    (List.range m).filterMap f = (List.range n).filterMap f := by
  induction m with
  | zero =>
    have : n = 0 := by omega
    rw [this]
  | succ m1 ih =>
    by_cases hc : n = m1 + 1
    · rw [hc]
    · have h1 : n ≤ m1 := by omega
      rw [List.range_succ, List.filterMap_append, ih h1]
      simp [h m1 h1]

theorem maxForKeyB_store {s ext : Store} (hv : ValidStore (s ++ ext))
    {R : List Nat} (hRb : ∀ j ∈ R, j < s.length) {i : Nat} (hi : i < s.length) :
    maxForKeyB (s ++ ext) R i = maxForKeyB s R i := by
  unfold maxForKeyB
  rw [keyAt_append hi]
  congr 1
  apply list_all_congr
  intro j hj
  rw [keyAt_append (hRb j hj), reach_append hv (hRb j hj)]

theorem winnerB_store {s ext : Store} (hv : ValidStore (s ++ ext))
    {R : List Nat} (hRb : ∀ j ∈ R, j < s.length) {i : Nat} (hi : i < s.length) :
    winnerB (s ++ ext) R i = winnerB s R i := by
  unfold winnerB
  rw [maxForKeyB_store hv hRb hi, keyAt_append hi]
  congr 1
  apply list_all_congr
  intro j hj
  rw [keyAt_append (hRb j hj), maxForKeyB_store hv hRb (hRb j hj)]

theorem matKV_append {s ext : Store} (hv : ValidStore (s ++ ext))
    {head : List Nat} (hb : ∀ h ∈ head, h < s.length) :
    matKV (s ++ ext) head = matKV s head := by
  have hR : reachHead (s ++ ext) head = reachHead s head := reachHead_append hv hb
  have hvs : ValidStore s := validStore_sub hv
  have hRb : ∀ j ∈ reachHead s head, j < s.length := reachHead_bound hvs hb
  unfold matKV
  rw [hR]
  have hlen : s.length ≤ (s ++ ext).length := by simp
  rw [filterMap_range_extend hlen (fun i hi => ?_)]
  · apply filterMap_congr_mem
    intro i hi
    have hilt : i < s.length := List.mem_range.mp hi
    rw [winnerB_store hv hRb hilt, List.getElem?_append_left hilt]
  · have hni : winnerB (s ++ ext) (reachHead s head) i = false := by
      unfold winnerB maxForKeyB
      have : decide (i ∈ reachHead s head) = false := by
        rw [decide_eq_false_iff_not]
        intro hc
        exact absurd (hRb i hc) (by omega)
      rw [this]
      rfl
    rw [hni]
    rfl

/-- C1: for every pair of replicas starting from the same initial
empty state on a shared append-only block store and applying the same
multiset of puts (one applying the sequence `pa`, the other the
permutation `pb`), after each advances through all of the other's
events via `advance` - in any order (`ea`, `eb` are arbitrary
permutations of the two replicas' event CIDs) - the materialised
prolly-tree root CIDs are equal and their heads denote the same set of
frontier events. -/
theorem replica_convergence (pa pb : List (String × Nat)) (ea eb : List Nat)
    (hperm : pa.Perm pb)
    (hea : ea.Perm (idsFrom 0 pa.length))
    (heb : eb.Perm (idsFrom pa.length pb.length)) :
    rootCid (runPuts (runPuts [] [] pa).1 [] pb).1
        (advanceAll (runPuts (runPuts [] [] pa).1 [] pb).1
          (runPuts [] [] pa).2 eb) =
      rootCid (runPuts (runPuts [] [] pa).1 [] pb).1
        (advanceAll (runPuts (runPuts [] [] pa).1 [] pb).1
          (runPuts (runPuts [] [] pa).1 [] pb).2 ea) ∧
    frontier (runPuts (runPuts [] [] pa).1 [] pb).1
        (advanceAll (runPuts (runPuts [] [] pa).1 [] pb).1
          (runPuts [] [] pa).2 eb) =
      frontier (runPuts (runPuts [] [] pa).1 [] pb).1
        (advanceAll (runPuts (runPuts [] [] pa).1 [] pb).1
          (runPuts (runPuts [] [] pa).1 [] pb).2 ea) := by
  have hbnil : ∀ h ∈ ([] : List Nat), h < ([] : Store).length := by simp
  obtain ⟨hv1, hb1⟩ := runPuts_valid pa [] [] validStore_nil hbnil
  have hbe : ∀ h ∈ ([] : List Nat), h < (runPuts [] [] pa).1.length := by simp
  obtain ⟨hv2, hb2⟩ := runPuts_valid pb (runPuts [] [] pa).1 [] hv1 hbe
  obtain ⟨ext, hext⟩ := runPuts_app pb (runPuts [] [] pa).1 []
  have hlen1 : (runPuts [] [] pa).1.length = pa.length := by
    rw [runPuts_len]
    simp
  have hra2 : ∀ j, j ∈ reachHead (runPuts (runPuts [] [] pa).1 [] pb).1
      (runPuts [] [] pa).2 ↔ j ∈ idsFrom 0 pa.length := by
    intro j
    rw [hext, reachHead_append (hext ▸ hv2) hb1]
    have h0 := runPuts_reach pa [] [] validStore_nil hbnil j
    rw [show reachHead ([] : Store) [] = [] from rfl] at h0
    simpa using h0
  have hrb2 : ∀ j, j ∈ reachHead (runPuts (runPuts [] [] pa).1 [] pb).1
      (runPuts (runPuts [] [] pa).1 [] pb).2 ↔
      j ∈ idsFrom pa.length pb.length := by
    intro j
    have h0 := runPuts_reach pb (runPuts [] [] pa).1 [] hv1 hbe j
    rw [show reachHead (runPuts [] [] pa).1 [] = [] from rfl, hlen1] at h0
    simpa using h0
  have hcra : ∀ e ∈ idsFrom 0 pa.length,
      ∀ j ∈ reach (runPuts (runPuts [] [] pa).1 [] pb).1 e,
      j ∈ idsFrom 0 pa.length := by
    intro e he j hj
    have hel : e < (runPuts [] [] pa).1.length := by
      rw [hlen1]
      have := (mem_idsFrom pa.length 0 e).mp he
      omega
    rw [hext, reach_append (hext ▸ hv2) hel] at hj
    have h0 := runPuts_created_reach pa [] [] validStore_nil hbnil e
      (by simpa using he) j hj
    rcases h0 with h | h
    · rw [show reachHead ([] : Store) [] = [] from rfl] at h
      cases h
    · simpa using h
  have hcrb : ∀ e ∈ idsFrom pa.length pb.length,
      ∀ j ∈ reach (runPuts (runPuts [] [] pa).1 [] pb).1 e,
      j ∈ idsFrom pa.length pb.length := by
    intro e he j hj
    have he2 : e ∈ idsFrom (runPuts [] [] pa).1.length pb.length := by
      rw [hlen1]
      exact he
    have h0 := runPuts_created_reach pb (runPuts [] [] pa).1 [] hv1 hbe e he2 j hj
    rcases h0 with h | h
    · rw [show reachHead (runPuts [] [] pa).1 [] = [] from rfl] at h
      cases h
    · rw [hlen1] at h
      exact h
  have hAmem : ∀ j, j ∈ reachHead (runPuts (runPuts [] [] pa).1 [] pb).1
      (advanceAll (runPuts (runPuts [] [] pa).1 [] pb).1
        (runPuts [] [] pa).2 eb) ↔
      (j ∈ idsFrom 0 pa.length ∨ j ∈ idsFrom pa.length pb.length) := by
    intro j
    rw [advanceAll_reach hv2 eb (runPuts [] [] pa).2 j]
    constructor
    · rintro (h | ⟨e, he, hj⟩)
      · exact Or.inl ((hra2 j).mp h)
      · exact Or.inr (hcrb e (heb.mem_iff.mp he) j hj)
    · rintro (h | h)
      · exact Or.inl ((hra2 j).mpr h)
      · exact Or.inr ⟨j, heb.mem_iff.mpr h, self_mem_reach _ j⟩
  have hBmem : ∀ j, j ∈ reachHead (runPuts (runPuts [] [] pa).1 [] pb).1
      (advanceAll (runPuts (runPuts [] [] pa).1 [] pb).1
        (runPuts (runPuts [] [] pa).1 [] pb).2 ea) ↔
      (j ∈ idsFrom pa.length pb.length ∨ j ∈ idsFrom 0 pa.length) := by
    intro j
    rw [advanceAll_reach hv2 ea (runPuts (runPuts [] [] pa).1 [] pb).2 j]
    constructor
    · rintro (h | ⟨e, he, hj⟩)
      · exact Or.inl ((hrb2 j).mp h)
      · exact Or.inr (hcra e (hea.mem_iff.mp he) j hj)
    · rintro (h | h)
      · exact Or.inl ((hrb2 j).mpr h)
      · exact Or.inr ⟨j, hea.mem_iff.mpr h, self_mem_reach _ j⟩
  have hsame : ∀ j, j ∈ reachHead (runPuts (runPuts [] [] pa).1 [] pb).1
      (advanceAll (runPuts (runPuts [] [] pa).1 [] pb).1
        (runPuts [] [] pa).2 eb) ↔
      j ∈ reachHead (runPuts (runPuts [] [] pa).1 [] pb).1
        (advanceAll (runPuts (runPuts [] [] pa).1 [] pb).1
          (runPuts (runPuts [] [] pa).1 [] pb).2 ea) := by
    intro j
    rw [hAmem j, hBmem j]
    tauto
  exact ⟨matKV_ext hsame, frontier_ext hsame⟩

theorem replica_convergence_witness :
    rootCid (runPuts (runPuts [] [] [("k1", 1), ("k2", 2)]).1 []
        [("k2", 2), ("k1", 1)]).1
        (advanceAll (runPuts (runPuts [] [] [("k1", 1), ("k2", 2)]).1 []
          [("k2", 2), ("k1", 1)]).1
          (runPuts [] [] [("k1", 1), ("k2", 2)]).2 [3, 2]) =
      rootCid (runPuts (runPuts [] [] [("k1", 1), ("k2", 2)]).1 []
        [("k2", 2), ("k1", 1)]).1
        (advanceAll (runPuts (runPuts [] [] [("k1", 1), ("k2", 2)]).1 []
          [("k2", 2), ("k1", 1)]).1
          (runPuts (runPuts [] [] [("k1", 1), ("k2", 2)]).1 []
            [("k2", 2), ("k1", 1)]).2 [1, 0]) ∧
    frontier (runPuts (runPuts [] [] [("k1", 1), ("k2", 2)]).1 []
        [("k2", 2), ("k1", 1)]).1
        (advanceAll (runPuts (runPuts [] [] [("k1", 1), ("k2", 2)]).1 []
          [("k2", 2), ("k1", 1)]).1
          (runPuts [] [] [("k1", 1), ("k2", 2)]).2 [3, 2]) =
      frontier (runPuts (runPuts [] [] [("k1", 1), ("k2", 2)]).1 []
        [("k2", 2), ("k1", 1)]).1
        (advanceAll (runPuts (runPuts [] [] [("k1", 1), ("k2", 2)]).1 []
          [("k2", 2), ("k1", 1)]).1
          (runPuts (runPuts [] [] [("k1", 1), ("k2", 2)]).1 []
            [("k2", 2), ("k1", 1)]).2 [1, 0]) :=
  replica_convergence [("k1", 1), ("k2", 2)] [("k2", 2), ("k1", 1)] [1, 0] [3, 2]
    (by decide) (by decide) (by decide)

/-- C7: serializing a database yields the clock handle `{clock: [cid]}`
holding exactly the head CIDs, and calling `setClock` with the clock
from a previously produced handle restores a state whose `getAll()`
returns the same rows as at serialization time, even after the shared
append-only store has grown. -/
theorem clock_handle_roundtrip (d : DbState) (ext : Store) (h2 : List Nat)
    (hv : ValidStore (d.store ++ ext)) (hb : ∀ h ∈ d.head, h < d.store.length) :
    (dbGetClock d).clock = d.head ∧
      dbGetAll (dbSetClock ⟨d.store ++ ext, h2⟩ (dbGetClock d)) = dbGetAll d :=
  ⟨rfl, matKV_append hv hb⟩

theorem clock_handle_roundtrip_witness :
    (dbGetClock (⟨[⟨[], EData.put "x" 1⟩], [0]⟩ : DbState)).clock = [0] ∧
      dbGetAll (dbSetClock
          ⟨[(⟨[], EData.put "x" 1⟩ : PEvent)] ++ [⟨[0], EData.put "y" 2⟩], [1]⟩
          (dbGetClock ⟨[⟨[], EData.put "x" 1⟩], [0]⟩)) =
        dbGetAll ⟨[⟨[], EData.put "x" 1⟩], [0]⟩ :=
  clock_handle_roundtrip ⟨[⟨[], EData.put "x" 1⟩], [0]⟩ [⟨[0], EData.put "y" 2⟩]
    [1] (validStore_of_validStoreB (by decide)) (by decide)

/-- C8: refuting counterexample for the trailing-debounce claim: with
the 250 ms interval the hook uses, two calls at times 0 and 100 form
one burst, yet `husher` runs the work at time 0 - at the first call,
before the burst ends - so the dispatch is not a trailing debounce
that runs after the burst reflecting the last call. -/
theorem husher_not_trailing :
    ¬((husherRunTimes 250 0 [0, 100]).length = 1 ∧
      ∀ t ∈ husherRunTimes 250 0 [0, 100], ∀ c ∈ [0, 100], c ≤ t) := by
  decide

/-- C8 (amended): `husher` coalesces a burst as a leading-edge
throttle: a burst starting at `t0` whose later calls all happen before
the map entry expires (work duration `d` plus interval `ms` after
completion) runs the work exactly once, at the first call; the hook
wires the listener callback with interval 250 ms. -/
theorem husher_leading_edge (ms d t0 : Nat) (rest : List Nat)
    (hburst : ∀ c ∈ rest, c < t0 + d + ms) :
    husherRunTimes ms d (t0 :: rest) = [t0] ∧ listenerHusherMs = 250 := by
  constructor
  · show (match husherStep ms d none t0 with
      | (st1, true) => t0 :: husherRunsFrom ms d st1 rest
      | (st1, false) => husherRunsFrom ms d st1 rest) = [t0]
    rw [show husherStep ms d none t0 = (some (t0 + d + ms), true) from rfl]
    show t0 :: husherRunsFrom ms d (some (t0 + d + ms)) rest = [t0]
    have hquiet : ∀ (calls : List Nat) (b : Nat), (∀ c ∈ calls, c < b) →
        husherRunsFrom ms d (some b) calls = [] := by
      intro calls
      induction calls with
      | nil => intro b _; rfl
      | cons c cs ih =>
        intro b hcb
        have hc : c < b := hcb c (List.mem_cons_self c cs)
        show (match husherStep ms d (some b) c with
          | (st1, true) => c :: husherRunsFrom ms d st1 cs
          | (st1, false) => husherRunsFrom ms d st1 cs) = []
        have hstep : husherStep ms d (some b) c = (some b, false) := by
          show (if c < b then ((some b : Option Nat), false)
            else (some (c + d + ms), true)) = ((some b : Option Nat), false)
          rw [if_pos hc]
        rw [hstep]
        exact ih b (fun x hx => hcb x (List.mem_cons_of_mem c hx))
    rw [hquiet rest (t0 + d + ms) hburst]
  · rfl

theorem husher_leading_edge_witness :
    (∀ c ∈ [100], c < 0 + 0 + 250) ∧
      (husherRunTimes 250 0 (0 :: [100]) = [0] ∧ listenerHusherMs = 250) :=
  ⟨by decide, husher_leading_edge 250 0 0 [100] (by decide)⟩

end Pail
